import Mathlib

/-!
Shallow embedding of the p-adic root lifter of `src/hensel_lifting.py` and
proofs of the specified properties.  Polynomials are ascending-degree
integer coefficient lists (the explicit representation the design notes
prescribe for the sympy expressions of the source); `evalPoly` models
`f.subs(x, v)` and `derivCoeffs` models `f.diff(x)`.  Python `%` on a
positive modulus is `Int.emod`, Python `//` is `Int.fdiv`, and the fallible
`pow(d, -1, p)` is an `Option`-valued function, `none` standing for the
`ValueError` Python raises when no modular inverse exists.
-/

/-- Horner evaluation of an integer-coefficient polynomial, given as its
ascending-degree coefficient list: models sympy `f.subs(x, v)`. -/
def evalPoly (c : List Int) (v : Int) : Int :=
  c.foldr (fun a acc => a + v * acc) 0

/-- Helper for the formal derivative: `derivAux [a, b, ...] k` is
`[k*a, (k+1)*b, ...]`. -/
def derivAux : List Int → Nat → List Int
  | [], _ => []
  | a :: rest, k => (k : Int) * a :: derivAux rest (k + 1)

/-- Coefficient list of the formal derivative: models sympy `f.diff(x)`. -/
def derivCoeffs (c : List Int) : List Int :=
  derivAux (c.drop 1) 1

/-- Degree of a coefficient list: index of its last nonzero coefficient. -/
def polyDegree (c : List Int) : Nat :=
  (c.reverse.dropWhile (fun a => decide (a = 0))).length - 1

/-- Models Python `pow(a, -1, p)`: the unique multiplicative inverse of `a`
modulo `p` lying in `[0, p)` when it exists, `none` when Python would raise
`ValueError`. -/
def pyPowNegOne (a : Int) (p : Nat) : Option Int :=
  if p = 1 then some 0
  else ((List.range p).find? (fun (v : Nat) => decide (a * (v : Int) % (p : Int) = 1))).map
    (fun (v : Nat) => (v : Int))

/-- Level-1 residue list: models
`sols = [k for k in range(p) if f.subs(x, k) % p == 0]`. -/
def levelOneSols (f : List Int) (p : Nat) : List Int :=
  ((List.range p).map (fun (k : Nat) => (k : Int))).filter
    (fun s => decide (evalPoly f s % (p : Int) = 0))

/-- One pass of the Python lifting loop body at loop index `i`
(`mod = p ** (i + 1)`, `prev_mod = p ** i`), processing the current residue
list in order; `none` models an uncaught `ValueError` from `pow`. -/
def liftStep (f : List Int) (p i : Nat) : List Int → Option (List Int)
  | [] => some []
  | s :: rest =>
    let md : Int := (p : Int) ^ (i + 1)
    let prevMod : Int := (p : Int) ^ i
    let dfVal : Int := evalPoly (derivCoeffs f) s % (p : Int)
    let fVal : Int := evalPoly f s % md
    if dfVal ≠ 0 then
      match pyPowNegOne dfVal p with
      | none => none
      | some inv =>
        let t : Int := (-fVal).fdiv prevMod * inv % (p : Int)
        (liftStep f p i rest).map (fun L => (s + t * prevMod) :: L)
    else if fVal % md = 0 then
      (liftStep f p i rest).map (fun L => s :: L)
    else
      liftStep f p i rest

/-- Working residue list after the first `j` iterations of the lifting loop,
i.e. the level-`(j+1)` residue list of the algorithm. -/
def solsFrom (f : List Int) (p : Nat) : Nat → Option (List Int)
  | 0 => some (levelOneSols f p)
  | j + 1 => (solsFrom f p j).bind (liftStep f p (j + 1))

/-- Python `round` on an exact rational value: round half to even, as the
interpreter running the source does. -/
def pyRound (q : ℚ) : ℤ :=
  if q - ⌊q⌋ < 1 / 2 then ⌊q⌋
  else if (1 : ℚ) / 2 < q - ⌊q⌋ then ⌊q⌋ + 1
  else if ⌊q⌋ % 2 = 0 then ⌊q⌋ else ⌊q⌋ + 1

/-- Models `check_irrational(k, tol)`, i.e. `abs(k - round(k)) > tol`. -/
def check_irrational (k tol : ℚ) : Bool :=
  decide (tol < |k - (pyRound k : ℚ)|)

/-- Spec operation `isInteger`: the negation of `check_irrational`. -/
def isInteger (k tol : ℚ) : Bool :=
  ! check_irrational k tol

/-- The final near-integer filter predicate of the source,
`abs(s - round(s)) < 1e-6`, on the (exact integer) residues. -/
def nearInt (s : Int) : Bool :=
  decide (|(s : ℚ) - (pyRound (s : ℚ) : ℚ)| < 1 / 1000000)

/-- Models `hensel_lift(f, p, n)`: level-1 scan, `n - 1` lifting passes,
then the near-integer filter.  For `n ≤ 1` the Python loop body never
runs, so the level-1 list is filtered directly. -/
def hensel_lift (f : List Int) (p n : Nat) : Option (List Int) :=
  (solsFrom f p (n - 1)).map (List.filter nearInt)

/-! ### Polynomial evaluation lemmas -/

theorem evalPoly_nil (v : Int) : evalPoly [] v = 0 := rfl

theorem evalPoly_cons (a : Int) (c : List Int) (v : Int) :
    evalPoly (a :: c) v = a + v * evalPoly c v := rfl

theorem evalPoly_derivAux_succ (c : List Int) (k : Nat) (v : Int) :
    evalPoly (derivAux c (k + 1)) v = evalPoly (derivAux c k) v + evalPoly c v := by
  induction c generalizing k with
  | nil => simp [derivAux, evalPoly_nil]
  | cons a rest ih =>
    simp only [derivAux, evalPoly_cons, ih (k + 1)]
    push_cast
    ring

theorem evalPoly_derivCoeffs_cons (a : Int) (c : List Int) (v : Int) :
    evalPoly (derivCoeffs (a :: c)) v = evalPoly c v + v * evalPoly (derivCoeffs c) v := by
  cases c with
  | nil => simp [derivCoeffs, derivAux, evalPoly_nil]
  | cons b rest =>
    simp only [derivCoeffs, List.drop_succ_cons, List.drop_zero, derivAux,
      evalPoly_cons, evalPoly_derivAux_succ rest 1]
    push_cast
    ring

/-- Degree-two Taylor expansion of `evalPoly`: the quadratic remainder is an
exact integer multiple of `h ^ 2`. -/
theorem evalPoly_taylor (c : List Int) (s h : Int) :
    ∃ q, evalPoly c (s + h) =
      evalPoly c s + evalPoly (derivCoeffs c) s * h + q * h ^ 2 := by
  induction c with
  | nil => exact ⟨0, by simp [evalPoly_nil, derivCoeffs, derivAux]⟩
  | cons a rest ih =>
    obtain ⟨q, hq⟩ := ih
    refine ⟨q * s + evalPoly (derivCoeffs rest) s + q * h, ?_⟩
    rw [evalPoly_cons, evalPoly_cons, hq, evalPoly_derivCoeffs_cons]
    ring

/-- Congruent arguments give congruent polynomial values. -/
theorem evalPoly_modEq (c : List Int) {m a b : Int} (h : a ≡ b [ZMOD m]) :
    evalPoly c a ≡ evalPoly c b [ZMOD m] := by
  induction c with
  | nil => rfl
  | cons d rest ih =>
    simpa only [evalPoly_cons] using (Int.ModEq.refl d).add (h.mul ih)

/-! ### Modular inverse lemmas -/

/-- A successful `pow(a, -1, p)` call really returns an inverse of `a`. -/
theorem pyPowNegOne_inverse {d : Int} {p : Nat} {v : Int} (hp : p ≠ 1)
    (h : pyPowNegOne d p = some v) : d * v % (p : Int) = 1 := by
  unfold pyPowNegOne at h
  rw [if_neg hp, Option.map_eq_some'] at h
  obtain ⟨w, hw, rfl⟩ := h
  simpa using List.find?_some hw

/-- For a prime modulus and a nonzero reduced argument, `pow(a, -1, p)`
succeeds. -/
theorem exists_pyPowNegOne {p : Nat} (hp : p.Prime) {d : Int} (h0 : 0 ≤ d)
    (h1 : d < (p : Int)) (hne : d ≠ 0) : ∃ v, pyPowNegOne d p = some v := by
  haveI : Fact p.Prime := ⟨hp⟩
  haveI : NeZero p := ⟨hp.pos.ne'⟩
  have hp1 : p ≠ 1 := hp.one_lt.ne'
  have hdz : (d : ZMod p) ≠ 0 := by
    rw [Ne, ZMod.intCast_zmod_eq_zero_iff_dvd]
    intro hdvd
    refine hne (Int.eq_zero_of_dvd_of_natAbs_lt_natAbs hdvd ?_)
    rw [Int.natAbs_ofNat]
    omega
  have hw : d * (((d : ZMod p)⁻¹).val : Int) % (p : Int) = 1 := by
    have hcast : ((d * (((d : ZMod p)⁻¹).val : Int) : Int) : ZMod p) = ((1 : Int) : ZMod p) := by
      push_cast
      rw [ZMod.natCast_val, ZMod.cast_id]
      exact mul_inv_cancel₀ hdz
    have hmod := (ZMod.intCast_eq_intCast_iff _ _ _).mp hcast
    have h1p : (1 : Int) % (p : Int) = 1 :=
      Int.emod_eq_of_lt (by norm_num) (by exact_mod_cast hp.one_lt)
    calc d * (((d : ZMod p)⁻¹).val : Int) % (p : Int)
        = (1 : Int) % (p : Int) := hmod
      _ = 1 := h1p
  unfold pyPowNegOne
  rw [if_neg hp1]
  have hs : ((List.range p).find?
      (fun (v : Nat) => decide (d * (v : Int) % (p : Int) = 1))).isSome := by
    rw [List.find?_isSome]
    exact ⟨((d : ZMod p)⁻¹).val, List.mem_range.mpr (ZMod.val_lt _), by simpa using hw⟩
  obtain ⟨w0, hw0⟩ := Option.isSome_iff_exists.mp hs
  exact ⟨w0, by rw [hw0]; rfl⟩

/-! ### Rounding and filter lemmas -/

theorem pyRound_of_floor {q : ℚ} {z : ℤ} (h1 : ⌊q⌋ = z) (h2 : q - z < 1 / 2) :
    pyRound q = z := by
  unfold pyRound
  rw [h1]
  exact if_pos h2

theorem pyRound_intCast (s : ℤ) : pyRound (s : ℚ) = s :=
  pyRound_of_floor (Int.floor_intCast s) (by norm_num)

theorem nearInt_eq_true (s : ℤ) : nearInt s = true := by
  unfold nearInt
  rw [pyRound_intCast]
  norm_num

/-- On an exact integer, `check_irrational` is false for any nonnegative
tolerance. -/
theorem check_irrational_intCast (s : ℤ) {tol : ℚ} (htol : 0 ≤ tol) :
    check_irrational (s : ℚ) tol = false := by
  unfold check_irrational
  rw [pyRound_intCast]
  simp only [sub_self, abs_zero, decide_eq_false_iff_not, not_lt]
  simpa using htol

/-- The final near-integer filter of the source keeps every residue: the
residues are exact integers. -/
theorem hensel_lift_eq_solsFrom (f : List Int) (p n : Nat) :
    hensel_lift f p n = solsFrom f p (n - 1) := by
  unfold hensel_lift
  cases h : solsFrom f p (n - 1) with
  | none => rfl
  | some L =>
    rw [Option.map_some', List.filter_eq_self.mpr fun a _ => nearInt_eq_true a]

/-! ### Structure of one lifting pass -/

theorem liftStep_nil (f : List Int) (p i : Nat) : liftStep f p i [] = some [] := rfl

theorem liftStep_cons (f : List Int) (p i : Nat) (s : Int) (rest : List Int) :
    liftStep f p i (s :: rest) =
      (if evalPoly (derivCoeffs f) s % (p : Int) ≠ 0 then
        match pyPowNegOne (evalPoly (derivCoeffs f) s % (p : Int)) p with
        | none => none
        | some inv =>
          (liftStep f p i rest).map (fun L =>
            (s + (-(evalPoly f s % (p : Int) ^ (i + 1))).fdiv ((p : Int) ^ i) * inv
              % (p : Int) * (p : Int) ^ i) :: L)
      else if (evalPoly f s % (p : Int) ^ (i + 1)) % (p : Int) ^ (i + 1) = 0 then
        (liftStep f p i rest).map (fun L => s :: L)
      else liftStep f p i rest) := rfl

/-- Case analysis for one element of a successful lifting pass: either the
non-singular Newton step ran (with a successful inverse), or the singular
residue was kept, or the singular residue was dropped. -/
theorem liftStep_cons_some {f : List Int} {p i : Nat} {s : Int} {rest L' : List Int}
    (h : liftStep f p i (s :: rest) = some L') :
    ∃ R, liftStep f p i rest = some R ∧
      ((∃ v, evalPoly (derivCoeffs f) s % (p : Int) ≠ 0 ∧
          pyPowNegOne (evalPoly (derivCoeffs f) s % (p : Int)) p = some v ∧
          L' = (s + (-(evalPoly f s % (p : Int) ^ (i + 1))).fdiv ((p : Int) ^ i) * v
            % (p : Int) * (p : Int) ^ i) :: R) ∨
        (evalPoly (derivCoeffs f) s % (p : Int) = 0 ∧
          evalPoly f s % (p : Int) ^ (i + 1) = 0 ∧ L' = s :: R) ∨
        (evalPoly (derivCoeffs f) s % (p : Int) = 0 ∧
          evalPoly f s % (p : Int) ^ (i + 1) ≠ 0 ∧ L' = R)) := by
  rw [liftStep_cons] at h
  by_cases hdf : evalPoly (derivCoeffs f) s % (p : Int) ≠ 0
  · rw [if_pos hdf] at h
    cases hpw : pyPowNegOne (evalPoly (derivCoeffs f) s % (p : Int)) p with
    | none => rw [hpw] at h; simp at h
    | some v =>
      rw [hpw] at h
      replace h : (liftStep f p i rest).map (fun L =>
          (s + (-(evalPoly f s % (p : Int) ^ (i + 1))).fdiv ((p : Int) ^ i) * v
            % (p : Int) * (p : Int) ^ i) :: L) = some L' := h
      rw [Option.map_eq_some'] at h
      obtain ⟨R, hR, hL⟩ := h
      exact ⟨R, hR, Or.inl ⟨v, hdf, rfl, hL.symm⟩⟩
  · rw [if_neg hdf] at h
    rw [not_not] at hdf
    have hmm : (evalPoly f s % (p : Int) ^ (i + 1)) % (p : Int) ^ (i + 1)
        = evalPoly f s % (p : Int) ^ (i + 1) :=
      Int.emod_emod_of_dvd _ dvd_rfl
    by_cases hfv : (evalPoly f s % (p : Int) ^ (i + 1)) % (p : Int) ^ (i + 1) = 0
    · rw [if_pos hfv] at h
      rw [Option.map_eq_some'] at h
      obtain ⟨R, hR, hL⟩ := h
      exact ⟨R, hR, Or.inr (Or.inl ⟨hdf, by rw [← hmm]; exact hfv, hL.symm⟩)⟩
    · rw [if_neg hfv] at h
      exact ⟨L', h, Or.inr (Or.inr ⟨hdf, by rw [← hmm]; exact hfv, rfl⟩)⟩

/-- Soundness of the non-singular Newton step: starting from a level-`i`
residue, the lifted residue is a root modulo `p ^ (i + 1)` lying in
`[0, p ^ (i + 1))`. -/
theorem newton_step_sound {f : List Int} {p i : Nat} {s v : Int}
    (hp2 : 2 ≤ p) (hi : 1 ≤ i)
    (hroot : evalPoly f s % (p : Int) ^ i = 0)
    (hs0 : 0 ≤ s) (hsi : s < (p : Int) ^ i)
    (hinv : evalPoly (derivCoeffs f) s % (p : Int) * v % (p : Int) = 1) :
    evalPoly f (s + (-(evalPoly f s % (p : Int) ^ (i + 1))).fdiv ((p : Int) ^ i) * v
        % (p : Int) * (p : Int) ^ i) % (p : Int) ^ (i + 1) = 0 ∧
      0 ≤ s + (-(evalPoly f s % (p : Int) ^ (i + 1))).fdiv ((p : Int) ^ i) * v
        % (p : Int) * (p : Int) ^ i ∧
      s + (-(evalPoly f s % (p : Int) ^ (i + 1))).fdiv ((p : Int) ^ i) * v
        % (p : Int) * (p : Int) ^ i < (p : Int) ^ (i + 1) := by
  have hp0 : (0 : Int) < (p : Int) := by exact_mod_cast Nat.lt_of_lt_of_le Nat.zero_lt_two hp2
  have hp1 : (1 : Int) < (p : Int) := by exact_mod_cast Nat.lt_of_lt_of_le Nat.one_lt_two hp2
  have hPi : (0 : Int) < (p : Int) ^ i := pow_pos hp0 i
  have hmd : (0 : Int) < (p : Int) ^ (i + 1) := pow_pos hp0 (i + 1)
  have hmd_eq : (p : Int) ^ (i + 1) = (p : Int) ^ i * (p : Int) := pow_succ _ _
  set P : Int := (p : Int) with hP
  set Pi : Int := P ^ i with hPidef
  set md : Int := P ^ (i + 1) with hmddef
  set F : Int := evalPoly f s with hF
  set D : Int := evalPoly (derivCoeffs f) s with hD
  set T : Int := (-(F % md)).fdiv Pi * v % P with hT
  have hT0 : 0 ≤ T := Int.emod_nonneg _ hp0.ne'
  have hTp : T < P := Int.emod_lt_of_pos _ hp0
  refine ⟨?_, ?_, ?_⟩
  · -- the lifted residue is a root modulo p ^ (i + 1)
    have hdvd : Pi ∣ md := pow_dvd_pow _ (Nat.le_succ i)
    have hfv_dvd : Pi ∣ F % md :=
      Int.dvd_of_emod_eq_zero (by rw [Int.emod_emod_of_dvd _ hdvd, hroot])
    obtain ⟨u, hu⟩ := hfv_dvd
    have hfdiv : (-(F % md)).fdiv Pi = -u := by
      rw [Int.fdiv_eq_ediv _ hPi.le, hu, ← mul_neg, Int.mul_ediv_cancel_left _ hPi.ne']
    obtain ⟨q, hq⟩ := evalPoly_taylor f s (T * Pi)
    have e1 : F ≡ Pi * u [ZMOD md] := by
      rw [← hu]
      exact (Int.emod_emod_of_dvd F dvd_rfl).symm
    have e2 : D ≡ D % P [ZMOD P] := (Int.emod_emod_of_dvd D dvd_rfl).symm
    have eD : D * (T * Pi) ≡ D % P * (T * Pi) [ZMOD md] := by
      rw [Int.modEq_iff_dvd]
      have hring : D % P * (T * Pi) - D * (T * Pi) = (Pi * (D % P - D)) * T := by ring
      rw [hring, hmd_eq]
      exact (mul_dvd_mul_left Pi (Int.ModEq.dvd e2)).mul_right T
    have eq3 : q * (T * Pi) ^ 2 ≡ 0 [ZMOD md] := by
      rw [Int.modEq_zero_iff_dvd]
      have hsq : (T * Pi) ^ 2 = T ^ 2 * P ^ (i * 2) := by
        rw [hPidef, pow_mul]
        ring
      have hdvd2 : md ∣ (T * Pi) ^ 2 := by
        rw [hsq]
        exact (pow_dvd_pow P (by omega)).mul_left _
      exact (hdvd2.mul_left q)
    have efinal : evalPoly f (s + T * Pi) ≡ Pi * (u + D % P * T) [ZMOD md] := by
      rw [hq, ← hF, ← hD]
      have hsum := (e1.add eD).add eq3
      have hring : Pi * u + D % P * (T * Pi) + 0 = Pi * (u + D % P * T) := by ring
      rwa [hring] at hsum
    have et : T ≡ -u * v [ZMOD P] := by
      show T % P = -u * v % P
      rw [hT, hfdiv]
      exact Int.emod_emod_of_dvd _ dvd_rfl
    have einv : D % P * v ≡ 1 [ZMOD P] := by
      show D % P * v % P = 1 % P
      rw [hinv, Int.emod_eq_of_lt (by norm_num) hp1]
    have hpdvd : P ∣ u + D % P * T := by
      have step1 : u + D % P * T ≡ u + D % P * (-u * v) [ZMOD P] :=
        (Int.ModEq.refl u).add ((Int.ModEq.refl (D % P)).mul et)
      have hring : D % P * (-u * v) = -u * (D % P * v) := by ring
      have step2 : u + D % P * (-u * v) ≡ u + -u * 1 [ZMOD P] := by
        rw [hring]
        exact (Int.ModEq.refl u).add ((Int.ModEq.refl (-u)).mul einv)
      have hzero : u + -u * 1 = 0 := by ring
      have := (step1.trans step2)
      rw [hzero] at this
      exact Int.modEq_zero_iff_dvd.mp this
    have last : Pi * (u + D % P * T) ≡ 0 [ZMOD md] := by
      rw [Int.modEq_zero_iff_dvd, hmd_eq]
      exact mul_dvd_mul_left Pi hpdvd
    have hfin : evalPoly f (s + T * Pi) % md = 0 % md := efinal.trans last
    rwa [Int.zero_emod] at hfin
  · -- nonnegative
    have : 0 ≤ T * Pi := mul_nonneg hT0 hPi.le
    omega
  · -- below p ^ (i + 1)
    have hTle : T ≤ P - 1 := by omega
    have h1 : T * Pi ≤ (P - 1) * Pi := mul_le_mul_of_nonneg_right hTle hPi.le
    have h2 : s + T * Pi < Pi + (P - 1) * Pi := by omega
    have h3 : Pi + (P - 1) * Pi = P ^ (i + 1) := by
      rw [pow_succ]
      ring
    omega

/-- Adding a multiple of `P ^ i` (with `i ≥ 1`) does not change the residue
modulo `P`. -/
theorem add_mul_pow_emod {s T P : Int} {i : Nat} (hi : i ≠ 0) :
    (s + T * P ^ i) % P = s % P := by
  obtain ⟨m, hm⟩ := dvd_pow_self P hi
  rw [hm, show s + T * (P * m) = s + P * (T * m) by ring, Int.add_mul_emod_self_left]

/-- One lifting pass preserves the level invariant: all outputs are roots
modulo `p ^ (i + 1)` lying in `[0, p ^ (i + 1))`. -/
theorem liftStep_invariant {f : List Int} {p i : Nat} (hp2 : 2 ≤ p) (hi : 1 ≤ i)
    {L L' : List Int} (h : liftStep f p i L = some L')
    (hL : ∀ s ∈ L, evalPoly f s % (p : Int) ^ i = 0 ∧ 0 ≤ s ∧ s < (p : Int) ^ i) :
    ∀ r ∈ L', evalPoly f r % (p : Int) ^ (i + 1) = 0 ∧ 0 ≤ r ∧ r < (p : Int) ^ (i + 1) := by
  induction L generalizing L' with
  | nil =>
    rw [liftStep_nil] at h
    cases h
    intro r hr
    cases hr
  | cons s rest ih =>
    obtain ⟨R, hR, hcase⟩ := liftStep_cons_some h
    have hs := hL s (List.mem_cons_self s rest)
    have hrest := ih hR fun x hx => hL x (List.mem_cons_of_mem _ hx)
    rcases hcase with ⟨v, hdf, hpw, rfl⟩ | ⟨hdf, hfv, rfl⟩ | ⟨hdf, hfv, rfl⟩
    · intro r hr
      rcases List.mem_cons.mp hr with rfl | hr
      · have hp1 : p ≠ 1 := by omega
        exact newton_step_sound hp2 hi hs.1 hs.2.1 hs.2.2 (pyPowNegOne_inverse hp1 hpw)
      · exact hrest r hr
    · intro r hr
      rcases List.mem_cons.mp hr with rfl | hr
      · refine ⟨hfv, hs.2.1, lt_of_lt_of_le hs.2.2 ?_⟩
        exact pow_le_pow_right₀ (by exact_mod_cast Nat.one_le_of_lt hp2) (Nat.le_succ i)
      · exact hrest r hr
    · exact hrest

/-- One lifting pass only refines residues: reducing any output modulo
`p ^ i` lands back in the input list. -/
theorem liftStep_proj {f : List Int} {p i : Nat}
    {L L' : List Int} (h : liftStep f p i L = some L')
    (hL : ∀ s ∈ L, 0 ≤ s ∧ s < (p : Int) ^ i) :
    ∀ r ∈ L', r % (p : Int) ^ i ∈ L := by
  induction L generalizing L' with
  | nil =>
    rw [liftStep_nil] at h
    cases h
    intro r hr
    cases hr
  | cons s rest ih =>
    obtain ⟨R, hR, hcase⟩ := liftStep_cons_some h
    have hs := hL s (List.mem_cons_self s rest)
    have hrest := ih hR fun x hx => hL x (List.mem_cons_of_mem _ hx)
    have hsmod : s % (p : Int) ^ i = s := Int.emod_eq_of_lt hs.1 hs.2
    rcases hcase with ⟨v, hdf, hpw, rfl⟩ | ⟨hdf, hfv, rfl⟩ | ⟨hdf, hfv, rfl⟩
    · intro r hr
      rcases List.mem_cons.mp hr with rfl | hr
      · rw [Int.add_mul_emod_self, hsmod]
        exact List.mem_cons_self _ _
      · exact List.mem_cons_of_mem _ (hrest r hr)
    · intro r hr
      rcases List.mem_cons.mp hr with rfl | hr
      · rw [hsmod]
        exact List.mem_cons_self _ _
      · exact List.mem_cons_of_mem _ (hrest r hr)
    · intro r hr
      exact List.mem_cons_of_mem _ (hrest r hr)

/-- For a prime modulus a lifting pass never fails: the modular inverse
exists whenever the non-singular branch requests it. -/
theorem liftStep_isSome (f : List Int) {p : Nat} (hp : p.Prime) (i : Nat) (L : List Int) :
    ∃ L', liftStep f p i L = some L' := by
  induction L with
  | nil => exact ⟨[], rfl⟩
  | cons s rest ih =>
    obtain ⟨R, hR⟩ := ih
    rw [liftStep_cons]
    by_cases hdf : evalPoly (derivCoeffs f) s % (p : Int) ≠ 0
    · rw [if_pos hdf]
      have hpz : ((p : Nat) : Int) ≠ 0 := Nat.cast_ne_zero.mpr hp.pos.ne'
      have h0 : 0 ≤ evalPoly (derivCoeffs f) s % (p : Int) := Int.emod_nonneg _ hpz
      have h1 : evalPoly (derivCoeffs f) s % (p : Int) < (p : Int) :=
        Int.emod_lt_of_pos _ (by exact_mod_cast hp.pos)
      obtain ⟨v, hv⟩ := exists_pyPowNegOne hp h0 h1 hdf
      rw [hv, hR]
      exact ⟨_, rfl⟩
    · rw [if_neg hdf]
      by_cases hfv : (evalPoly f s % (p : Int) ^ (i + 1)) % (p : Int) ^ (i + 1) = 0
      · rw [if_pos hfv, hR]
        exact ⟨_, rfl⟩
      · rw [if_neg hfv]
        exact ⟨R, hR⟩

/-- One lifting pass maps distinct residues to distinct residues. -/
theorem liftStep_nodup {f : List Int} {p i : Nat}
    {L L' : List Int} (h : liftStep f p i L = some L')
    (hL : ∀ s ∈ L, 0 ≤ s ∧ s < (p : Int) ^ i) (hnd : L.Nodup) :
    L'.Nodup := by
  induction L generalizing L' with
  | nil =>
    rw [liftStep_nil] at h
    cases h
    exact List.nodup_nil
  | cons s rest ih =>
    obtain ⟨R, hR, hcase⟩ := liftStep_cons_some h
    rw [List.nodup_cons] at hnd
    have hrestb : ∀ x ∈ rest, 0 ≤ x ∧ x < (p : Int) ^ i :=
      fun x hx => hL x (List.mem_cons_of_mem _ hx)
    have hRnd := ih hR hrestb hnd.2
    have hproj := liftStep_proj hR hrestb
    have hs := hL s (List.mem_cons_self s rest)
    have hsmod : s % (p : Int) ^ i = s := Int.emod_eq_of_lt hs.1 hs.2
    rcases hcase with ⟨v, hdf, hpw, rfl⟩ | ⟨hdf, hfv, rfl⟩ | ⟨hdf, hfv, rfl⟩
    · rw [List.nodup_cons]
      refine ⟨fun hmem => ?_, hRnd⟩
      have := hproj _ hmem
      rw [Int.add_mul_emod_self, hsmod] at this
      exact hnd.1 this
    · rw [List.nodup_cons]
      refine ⟨fun hmem => ?_, hRnd⟩
      have := hproj _ hmem
      rw [hsmod] at this
      exact hnd.1 this
    · exact hRnd

/-- One lifting pass preserves the number of residues congruent to a fixed
non-singular residue `s₀` modulo `p`. -/
theorem liftStep_countP {f : List Int} {p i : Nat} (hi : 1 ≤ i) {s₀ : Int}
    {L L' : List Int} (h : liftStep f p i L = some L')
    (hnd : ∀ r ∈ L, r % (p : Int) = s₀ % (p : Int) →
      evalPoly (derivCoeffs f) r % (p : Int) ≠ 0) :
    L'.countP (fun r => decide (r % (p : Int) = s₀ % (p : Int))) =
      L.countP (fun r => decide (r % (p : Int) = s₀ % (p : Int))) := by
  induction L generalizing L' with
  | nil =>
    rw [liftStep_nil] at h
    cases h
    rfl
  | cons s rest ih =>
    obtain ⟨R, hR, hcase⟩ := liftStep_cons_some h
    have hrest := ih hR fun x hx hxp => hnd x (List.mem_cons_of_mem _ hx) hxp
    rcases hcase with ⟨v, hdf, hpw, rfl⟩ | ⟨hdf, hfv, rfl⟩ | ⟨hdf, hfv, rfl⟩
    · rw [List.countP_cons, List.countP_cons, hrest, add_mul_pow_emod (by omega)]
    · rw [List.countP_cons, List.countP_cons, hrest]
    · have hPs : ¬(s % (p : Int) = s₀ % (p : Int)) :=
        fun hps => hnd s (List.mem_cons_self s rest) hps hdf
      rw [List.countP_cons, hrest]
      simp [hPs]

/-! ### Level-indexed lemmas -/

theorem solsFrom_zero (f : List Int) (p : Nat) :
    solsFrom f p 0 = some (levelOneSols f p) := rfl

theorem solsFrom_succ (f : List Int) (p j : Nat) :
    solsFrom f p (j + 1) = (solsFrom f p j).bind (liftStep f p (j + 1)) := rfl

theorem levelOneSols_sound {f : List Int} {p : Nat} :
    ∀ r ∈ levelOneSols f p, evalPoly f r % (p : Int) = 0 ∧ 0 ≤ r ∧ r < (p : Int) := by
  intro r hr
  unfold levelOneSols at hr
  rw [List.mem_filter] at hr
  obtain ⟨hmem, hpred⟩ := hr
  rw [List.mem_map] at hmem
  obtain ⟨k, hk, rfl⟩ := hmem
  rw [List.mem_range] at hk
  exact ⟨by simpa using hpred, Int.natCast_nonneg k, by exact_mod_cast hk⟩

theorem levelOneSols_nodup (f : List Int) (p : Nat) : (levelOneSols f p).Nodup :=
  List.Nodup.filter _
    (List.Nodup.map (fun _ _ hab => Nat.cast_injective hab) (List.nodup_range p))

/-- Level invariant of the algorithm: after `j` lifting passes every working
residue is a root modulo `p ^ (j + 1)` lying in `[0, p ^ (j + 1))`. -/
theorem solsFrom_invariant {f : List Int} {p : Nat} (hp2 : 2 ≤ p) (j : Nat) :
    ∀ {L}, solsFrom f p j = some L →
      ∀ r ∈ L, evalPoly f r % (p : Int) ^ (j + 1) = 0 ∧ 0 ≤ r ∧ r < (p : Int) ^ (j + 1) := by
  induction j with
  | zero =>
    intro L h r hr
    rw [solsFrom_zero, Option.some_inj] at h
    subst h
    have := levelOneSols_sound r hr
    simpa using this
  | succ j ih =>
    intro L h r hr
    rw [solsFrom_succ, Option.bind_eq_some] at h
    obtain ⟨M, hM, hstep⟩ := h
    exact liftStep_invariant hp2 (by omega) hstep (fun x hx => ih hM x hx) r hr

/-- Projectivity across levels: a residue at a later level reduces into the
working list of any earlier level. -/
theorem solsFrom_proj {f : List Int} {p : Nat} (hp2 : 2 ≤ p) (j : Nat) :
    ∀ {k}, k ≤ j → ∀ {L M}, solsFrom f p j = some L → solsFrom f p k = some M →
      ∀ r ∈ L, r % (p : Int) ^ (k + 1) ∈ M := by
  induction j with
  | zero =>
    intro k hk L M hL hM r hr
    have hk0 : k = 0 := by omega
    subst hk0
    rw [hL, Option.some_inj] at hM
    subst hM
    have hb := solsFrom_invariant hp2 0 hL r hr
    rw [Int.emod_eq_of_lt hb.2.1 hb.2.2]
    exact hr
  | succ j ih =>
    intro k hk L M hL hM r hr
    by_cases hkj : k = j + 1
    · subst hkj
      rw [hL, Option.some_inj] at hM
      subst hM
      have hb := solsFrom_invariant hp2 (j + 1) hL r hr
      rw [Int.emod_eq_of_lt hb.2.1 hb.2.2]
      exact hr
    · have hkj' : k ≤ j := by omega
      rw [solsFrom_succ, Option.bind_eq_some] at hL
      obtain ⟨Mid, hMid, hstep⟩ := hL
      have hbounds : ∀ x ∈ Mid, 0 ≤ x ∧ x < (p : Int) ^ (j + 1) :=
        fun x hx => (solsFrom_invariant hp2 j hMid x hx).2
      have hmem := liftStep_proj hstep hbounds r hr
      have hres := ih hkj' hMid hM _ hmem
      rwa [Int.emod_emod_of_dvd _ (pow_dvd_pow _ (by omega))] at hres

/-- For a prime modulus every level of the computation succeeds. -/
theorem solsFrom_isSome (f : List Int) {p : Nat} (hp : p.Prime) (j : Nat) :
    ∃ L, solsFrom f p j = some L := by
  induction j with
  | zero => exact ⟨levelOneSols f p, rfl⟩
  | succ j ih =>
    obtain ⟨L, hL⟩ := ih
    obtain ⟨L', hL'⟩ := liftStep_isSome f hp (j + 1) L
    refine ⟨L', ?_⟩
    rw [solsFrom_succ, hL]
    exact hL'

/-- The working residue list never contains duplicates. -/
theorem solsFrom_nodup {f : List Int} {p : Nat} (hp2 : 2 ≤ p) (j : Nat) :
    ∀ {L}, solsFrom f p j = some L → L.Nodup := by
  induction j with
  | zero =>
    intro L h
    rw [solsFrom_zero, Option.some_inj] at h
    subst h
    exact levelOneSols_nodup f p
  | succ j ih =>
    intro L h
    rw [solsFrom_succ, Option.bind_eq_some] at h
    obtain ⟨M, hM, hstep⟩ := h
    exact liftStep_nodup hstep (fun x hx => (solsFrom_invariant hp2 j hM x hx).2) (ih hM)

/-- Exactly one working residue lifts from a fixed non-singular level-1
root, at every level. -/
theorem solsFrom_countP {f : List Int} {p : Nat} (hp : p.Prime) {s₀ : Int}
    (hs : s₀ ∈ levelOneSols f p)
    (hd : evalPoly (derivCoeffs f) s₀ % (p : Int) ≠ 0) (j : Nat) :
    ∀ {L}, solsFrom f p j = some L →
      L.countP (fun r => decide (r % (p : Int) = s₀ % (p : Int))) = 1 := by
  have hp2 : 2 ≤ p := hp.two_le
  induction j with
  | zero =>
    intro L h
    rw [solsFrom_zero, Option.some_inj] at h
    subst h
    have hself : ∀ r ∈ levelOneSols f p, r % (p : Int) = r := fun r hr =>
      Int.emod_eq_of_lt (levelOneSols_sound r hr).2.1 (levelOneSols_sound r hr).2.2
    have hcongr : (levelOneSols f p).countP
          (fun r => decide (r % (p : Int) = s₀ % (p : Int))) =
        (levelOneSols f p).countP (fun r => r == s₀) := by
      refine List.countP_congr fun x hx => ?_
      rw [decide_eq_true_eq, beq_iff_eq, hself x hx, hself s₀ hs]
    rw [hcongr]
    exact List.count_eq_one_of_mem (levelOneSols_nodup f p) hs
  | succ j ih =>
    intro L h
    rw [solsFrom_succ, Option.bind_eq_some] at h
    obtain ⟨M, hM, hstep⟩ := h
    rw [← ih hM]
    refine liftStep_countP (by omega) hstep fun r hr hrp h0 => ?_
    have heq : evalPoly (derivCoeffs f) r % (p : Int) =
        evalPoly (derivCoeffs f) s₀ % (p : Int) := evalPoly_modEq (derivCoeffs f) hrp
    exact hd (heq ▸ h0)

/-! ### Helpers for degenerate inputs -/

/-- For the zero polynomial every residue is singular and is kept unchanged
by a lifting pass. -/
theorem liftStep_zero_poly (p i : Nat) (L : List Int) :
    liftStep ([] : List Int) p i L = some L := by
  induction L with
  | nil => rfl
  | cons s rest ih =>
    rw [liftStep_cons]
    have h0 : evalPoly (derivCoeffs []) s % (p : Int) = 0 := by
      simp [derivCoeffs, derivAux, evalPoly_nil]
    rw [if_neg (not_not.mpr h0)]
    have h1 : (evalPoly [] s % (p : Int) ^ (i + 1)) % (p : Int) ^ (i + 1) = 0 := by
      simp [evalPoly_nil]
    rw [if_pos h1, ih]
    rfl

/-- For the zero polynomial the working list is all of `{0, ..., p-1}` at
every level. -/
theorem solsFrom_zero_poly (p j : Nat) :
    solsFrom ([] : List Int) p j =
      some ((List.range p).map (fun (k : Nat) => (k : Int))) := by
  induction j with
  | zero =>
    rw [solsFrom_zero]
    congr 1
    unfold levelOneSols
    refine List.filter_eq_self.mpr fun a _ => ?_
    simp [evalPoly_nil]
  | succ j ih =>
    rw [solsFrom_succ, ih]
    exact liftStep_zero_poly p (j + 1) _

/-- For `p = 0` the level-1 scan is empty and stays empty. -/
theorem solsFrom_p_zero (f : List Int) (j : Nat) : solsFrom f 0 j = some [] := by
  induction j with
  | zero => rfl
  | succ j ih => rw [solsFrom_succ, ih]; rfl

/-! ### Claim theorems -/

/-- Claim C1: for a degree-≥ 1 integer polynomial, a prime `p ≥ 2` and
`n ≥ 1`, every value returned by `hensel_lift` is a root of `f` modulo
`p ^ n` lying in `[0, p ^ n)`, and at every intermediate level
`i ∈ [1, n]` every working residue is a root modulo `p ^ i` lying in
`[0, p ^ i)`. -/
theorem C1_hensel_invariant (f : List Int) (p n : Nat) (hp : p.Prime) (hn : 1 ≤ n)
    (_hdeg : 1 ≤ polyDegree f) :
    (∀ i L r, 1 ≤ i → i ≤ n → solsFrom f p (i - 1) = some L → r ∈ L →
      evalPoly f r % (p : Int) ^ i = 0 ∧ 0 ≤ r ∧ r < (p : Int) ^ i) ∧
    (∀ L r, hensel_lift f p n = some L → r ∈ L →
      evalPoly f r % (p : Int) ^ n = 0 ∧ 0 ≤ r ∧ r < (p : Int) ^ n) := by
  have hp2 := hp.two_le
  constructor
  · intro i L r hi _hin hL hr
    have hres := solsFrom_invariant hp2 (i - 1) hL r hr
    rwa [Nat.sub_add_cancel hi] at hres
  · intro L r hL hr
    rw [hensel_lift_eq_solsFrom] at hL
    have hres := solsFrom_invariant hp2 (n - 1) hL r hr
    rwa [Nat.sub_add_cancel hn] at hres

theorem C1_hensel_invariant_witness :
    evalPoly [-1, 0, 1] 26 % (3 : Int) ^ 3 = 0 ∧ (0 : Int) ≤ 26 ∧ (26 : Int) < (3 : Int) ^ 3 := by
  have hres : hensel_lift [-1, 0, 1] 3 3 = some [1, 26] := by
    rw [hensel_lift_eq_solsFrom]
    decide
  exact (C1_hensel_invariant [-1, 0, 1] 3 3 (by norm_num) (by norm_num) (by decide)).2
    [1, 26] 26 hres (by decide)

/-- Claim C2: for `f(x) = x³ − 3`, `p = 3`, `n = 5`, `hensel_lift` returns
the empty list, so the driver assertion `len(sols) == 0` holds. -/
theorem C2_cube_root_empty :
    hensel_lift [-3, 0, 0, 1] 3 5 = some [] ∧
      (hensel_lift [-3, 0, 0, 1] 3 5).map List.length = some 0 := by
  rw [hensel_lift_eq_solsFrom]
  exact ⟨by decide, by decide⟩

/-- Claim C3: lifting consistency: every root returned at precision `n`,
reduced modulo `p ^ m` (`1 ≤ m ≤ n`), is an element of the list returned at
precision `m`. -/
theorem C3_projectivity (f : List Int) (p m n : Nat) (hp : p.Prime) (hm : 1 ≤ m)
    (hmn : m ≤ n) {Ln Lm : List Int} (hLn : hensel_lift f p n = some Ln)
    (hLm : hensel_lift f p m = some Lm) :
    ∀ r ∈ Ln, r % (p : Int) ^ m ∈ Lm := by
  rw [hensel_lift_eq_solsFrom] at hLn hLm
  intro r hr
  have hres := solsFrom_proj hp.two_le (n - 1) (show m - 1 ≤ n - 1 by omega) hLn hLm r hr
  rwa [Nat.sub_add_cancel hm] at hres

theorem C3_projectivity_witness : (26 : Int) % (3 : Int) ^ 2 ∈ ([1, 8] : List Int) := by
  have h3 : hensel_lift [-1, 0, 1] 3 3 = some [1, 26] := by
    rw [hensel_lift_eq_solsFrom]
    decide
  have h2 : hensel_lift [-1, 0, 1] 3 2 = some [1, 8] := by
    rw [hensel_lift_eq_solsFrom]
    decide
  exact C3_projectivity [-1, 0, 1] 3 2 3 (by norm_num) (by norm_num) (by norm_num)
    h3 h2 26 (by decide)

/-- Claim C4 as stated is false: for `f(x) = x² − 1`, `p = 3`, `n = 3` the
code returns `[1, 26]`; the residue `8` named by the spec is not returned
and is not a solution of `r² ≡ 1 (mod 27)` (its square is 10 mod 27). -/
theorem C4_counterexample :
    hensel_lift [-1, 0, 1] 3 3 = some [1, 26] ∧
      (8 : Int) * 8 % 27 = 10 ∧
      decide ((8 : Int) ∈ ([1, 26] : List Int)) = false := by
  refine ⟨?_, by decide, by decide⟩
  rw [hensel_lift_eq_solsFrom]
  decide

/-- Claim C4, amended: for `f(x) = x² − 1`, `p = 3`, `n = 3` the code
returns exactly the residues `r` in `[0, 27)` with `r² ≡ 1 (mod 27)`,
namely `{1, 26}`. -/
theorem C4_amended :
    hensel_lift [-1, 0, 1] 3 3 = some [1, 26] ∧
      (List.range 27).filter (fun r => decide ((r : Int) * r % 27 = 1)) = [1, 26] := by
  refine ⟨?_, by decide⟩
  rw [hensel_lift_eq_solsFrom]
  decide

/-- Claim C5 as stated is false: `hensel_lift` performs no input
validation; for the malformed precision `n = 0` it still produces a root
list (the level-1 scan) instead of failing. -/
theorem C5_counterexample :
    hensel_lift [-1, 0, 1] 3 0 = some [1, 2] ∧
      (hensel_lift [-1, 0, 1] 3 0).isSome = true := by
  constructor <;> (rw [hensel_lift_eq_solsFrom]; decide)

/-- Claim C5, amended: no `InvalidInput` condition exists; on malformed
parameters `hensel_lift` silently returns a list: for `n < 1` it behaves
like `n = 1`, for `p = 0` it returns the empty list, and for the zero
polynomial it returns all of `{0, ..., p-1}`. -/
theorem C5_amended (f : List Int) (p n : Nat) :
    hensel_lift f p 0 = hensel_lift f p 1 ∧
      hensel_lift f 0 n = some [] ∧
      hensel_lift [] p n =
        some ((List.range p).map (fun (k : Nat) => (k : Int))) := by
  refine ⟨rfl, ?_, ?_⟩
  · rw [hensel_lift_eq_solsFrom, solsFrom_p_zero]
  · rw [hensel_lift_eq_solsFrom, solsFrom_zero_poly]

/-- Claim C6: if `s₀` is a level-1 root with `f'(s₀) ≢ 0 (mod p)`, then at
every level `i ∈ [2, n]` exactly one residue of the working list is
congruent to `s₀` modulo `p`. -/
theorem C6_uniqueness (f : List Int) (p n : Nat) (s₀ : Int) (hp : p.Prime)
    (_hn : 1 ≤ n) (hs : s₀ ∈ levelOneSols f p)
    (hd : evalPoly (derivCoeffs f) s₀ % (p : Int) ≠ 0) :
    ∀ i L, 2 ≤ i → i ≤ n → solsFrom f p (i - 1) = some L →
      L.countP (fun r => decide (r % (p : Int) = s₀ % (p : Int))) = 1 := by
  intro i L _hi2 _hin hL
  exact solsFrom_countP hp hs hd (i - 1) hL

theorem C6_uniqueness_witness :
    List.countP (fun r => decide (r % (3 : Int) = (1 : Int) % 3)) [1, 26] = 1 :=
  C6_uniqueness [-1, 0, 1] 3 3 1 (by norm_num) (by norm_num) (by decide) (by decide)
    3 [1, 26] (by norm_num) (by norm_num) (by decide)

/-- Claim C7: for a prime `p` the guarded modular inverse never fails:
`hensel_lift` always returns a result, and whenever a reduced derivative
value is nonzero its inverse modulo `p` exists and `pow(d, -1, p)` returns
it. -/
theorem C7_no_failure (f : List Int) (p n : Nat) (hp : p.Prime) (_hn : 1 ≤ n) :
    (hensel_lift f p n).isSome = true ∧
      ∀ d : Int, d % (p : Int) ≠ 0 →
        ∃ v, pyPowNegOne (d % (p : Int)) p = some v ∧
          d % (p : Int) * v % (p : Int) = 1 := by
  constructor
  · rw [hensel_lift_eq_solsFrom]
    obtain ⟨L, hL⟩ := solsFrom_isSome f hp (n - 1)
    rw [hL]
    rfl
  · intro d hd
    have hpz : ((p : Nat) : Int) ≠ 0 := Nat.cast_ne_zero.mpr hp.pos.ne'
    have h0 : 0 ≤ d % (p : Int) := Int.emod_nonneg _ hpz
    have h1 : d % (p : Int) < (p : Int) := Int.emod_lt_of_pos _ (by exact_mod_cast hp.pos)
    obtain ⟨v, hv⟩ := exists_pyPowNegOne hp h0 h1 hd
    exact ⟨v, hv, pyPowNegOne_inverse hp.one_lt.ne' hv⟩

theorem C7_no_failure_witness : (hensel_lift [-1, 0, 1] 3 3).isSome = true :=
  (C7_no_failure [-1, 0, 1] 3 3 (by norm_num) (by norm_num)).1

/-- A value whose distance to the integer below it is within tolerance is
accepted by `isInteger`. -/
theorem isInteger_of_near (z : ℤ) {q tol : ℚ} (h1 : ⌊q⌋ = z)
    (h2 : q - z < 1 / 2) (h3 : 0 ≤ q - z) (h4 : q - z ≤ tol) :
    isInteger q tol = true := by
  unfold isInteger check_irrational
  rw [pyRound_of_floor h1 h2]
  simp only [Bool.not_eq_true', decide_eq_false_iff_not, not_lt]
  rw [abs_of_nonneg h3]
  exact h4

/-- Claim C8 as stated is false: `isInteger(3.0000001, 1e-6)` returns true,
not false, because `|3.0000001 - 3| = 1e-7 ≤ 1e-6`. -/
theorem C8_counterexample :
    isInteger (30000001 / 10000000 : ℚ) (1 / 1000000) = true :=
  isInteger_of_near 3
    (by rw [Int.floor_eq_iff]; constructor <;> (push_cast; norm_num))
    (by push_cast; norm_num) (by push_cast; norm_num) (by push_cast; norm_num)

/-- Claim C8, amended: `isInteger` is total, and both
`isInteger(3.0000001, 1e-6)` and `isInteger(3.00000001, 1e-6)` return
true (each value is within `1e-6` of the integer 3). -/
theorem C8_amended :
    isInteger (30000001 / 10000000 : ℚ) (1 / 1000000) = true ∧
      isInteger (300000001 / 100000000 : ℚ) (1 / 1000000) = true :=
  ⟨isInteger_of_near 3
      (by rw [Int.floor_eq_iff]; constructor <;> (push_cast; norm_num))
      (by push_cast; norm_num) (by push_cast; norm_num) (by push_cast; norm_num),
    isInteger_of_near 3
      (by rw [Int.floor_eq_iff]; constructor <;> (push_cast; norm_num))
      (by push_cast; norm_num) (by push_cast; norm_num) (by push_cast; norm_num)⟩

/-- Claim C9: for a prime `p` and `n ≥ 1`, the working residue list at
every level, and the returned list, contain no duplicates. -/
theorem C9_no_duplicates (f : List Int) (p n : Nat) (hp : p.Prime) (_hn : 1 ≤ n) :
    (∀ i L, 1 ≤ i → i ≤ n → solsFrom f p (i - 1) = some L → L.Nodup) ∧
      ∀ L, hensel_lift f p n = some L → L.Nodup := by
  constructor
  · intro i L _hi _hin hL
    exact solsFrom_nodup hp.two_le (i - 1) hL
  · intro L hL
    rw [hensel_lift_eq_solsFrom] at hL
    exact solsFrom_nodup hp.two_le (n - 1) hL

theorem C9_no_duplicates_witness : ([1, 26] : List Int).Nodup :=
  (C9_no_duplicates [-1, 0, 1] 3 3 (by norm_num) (by norm_num)).2 [1, 26]
    (by rw [hensel_lift_eq_solsFrom]; decide)

/-- Claim C10: the residues are exact integers, so the final near-integer
filter removes nothing, `check_irrational` is false on every returned
element, and the driver's `ValueError` branch is unreachable. -/
theorem C10_filter_keeps_all (f : List Int) (p n : Nat) :
    (∀ L, solsFrom f p (n - 1) = some L → hensel_lift f p n = some L) ∧
      ∀ L s, hensel_lift f p n = some L → s ∈ L →
        check_irrational (s : ℚ) (1 / 1000000) = false := by
  constructor
  · intro L hL
    rw [hensel_lift_eq_solsFrom]
    exact hL
  · intro L s _ _
    exact check_irrational_intCast s (by norm_num)

theorem C10_filter_keeps_all_witness :
    hensel_lift [-1, 0, 1] 3 3 = some [1, 26] ∧
      check_irrational ((1 : Int) : ℚ) (1 / 1000000) = false := by
  constructor
  · exact (C10_filter_keeps_all [-1, 0, 1] 3 3).1 [1, 26] (by decide)
  · exact (C10_filter_keeps_all [-1, 0, 1] 3 3).2 [1, 26] 1
      ((C10_filter_keeps_all [-1, 0, 1] 3 3).1 [1, 26] (by decide)) (by decide)
